import Mathlib

/-!
Verification of the distro-tracker repository-data synchronization layer:
a shallow embedding of the HTTP cache (`distro_tracker/core/utils/http.py`),
the VCS-name helper (`distro_tracker/core/utils/__init__.py`) and the
repository reconciliation task, together with theorems about the claims
of the specification.
-/

namespace DistroTracker

/-! ### Generic association-list helpers -/

/-- First value bound to key `k` in an association list. -/
def lookupKey (m : List (String × String)) (k : String) : Option String :=
  match m with
  | [] => none
  | p :: rest => if p.1 = k then some p.2 else lookupKey rest k

/-- Insert an element at the end of the list unless it is already present. -/
def insertIfAbsent {α : Type} [DecidableEq α] (l : List α) (a : α) : List α :=
  if a ∈ l then l else l ++ [a]

/-- Bind key `k` to value `v`: rewrite every binding of `k` in place,
or append a new binding when the key is absent. -/
def setAssoc (m : List (String × String)) (k v : String) : List (String × String) :=
  if (lookupKey m k).isSome then
    m.map (fun p => if p.1 = k then (k, v) else p)
  else m ++ [(k, v)]

/-! ### `get_vcs_name` (distro_tracker/core/utils/__init__.py) -/

/-- The map of currently available VCS systems' shorthands to their names. -/
def VCS_SHORTHAND_TO_NAME : List (String × String) :=
  [("svn", "Subversion"),
   ("git", "Git"),
   ("bzr", "Bazaar"),
   ("cvs", "CVS"),
   ("darcs", "Darcs"),
   ("hg", "Mercurial"),
   ("mtn", "Monotone")]

/-- Returns a full name for the VCS given its shorthand; falls back to the
shorthand itself when it is unknown (mirrors the dict `.get(shorthand,
shorthand)` call in the source). -/
def get_vcs_name (shorthand : String) : String :=
  match lookupKey VCS_SHORTHAND_TO_NAME shorthand with
  | some n => n
  | none => shorthand

/-! ### HttpCache (distro_tracker/core/utils/http.py) -/

/-- An HTTP response as seen by `HttpCache.update`: final status code after
redirects, body and headers. -/
structure Response where
  statusCode : Nat
  content : List Nat
  headers : List (String × String)
deriving DecidableEq

/-- `requests.Response.ok`: true when the status code is below 400. -/
def Response.ok (r : Response) : Bool := r.statusCode < 400

/-- ASCII lowercase of a character. -/
def lowerChar (c : Char) : Char :=
  if 'A' ≤ c ∧ c ≤ 'Z' then Char.ofNat (c.toNat + 32) else c

/-- ASCII lowercase of a string (HTTP header names are ASCII). -/
def lowerStr (s : String) : String := String.mk (s.data.map lowerChar)

/-- Case-insensitive header lookup, as done by `CaseInsensitiveDict`. -/
def hfind (hs : List (String × String)) (k : String) : Option String :=
  match hs with
  | [] => none
  | p :: rest => if lowerStr p.1 = lowerStr k then some p.2 else hfind rest k

/-- One cached response: the content file and the headers file for a URL. -/
structure CacheEntry where
  content : List Nat
  headers : List (String × String)
deriving DecidableEq

/-- The cache: a mapping from URLs to cached entries. -/
abbrev Cache := List (String × CacheEntry)

/-- The cached entry for a URL, if the URL is in the cache. -/
def cacheFind (c : Cache) (url : String) : Option CacheEntry :=
  match c with
  | [] => none
  | p :: rest => if p.1 = url then some p.2 else cacheFind rest url

namespace HttpCache

/-- `url in cache`: whether the content cache file for the URL exists. -/
def containsUrl (c : Cache) (url : String) : Bool := (cacheFind c url).isSome

/-- `HttpCache.get_headers`: headers of the cached response, or empty. -/
def get_headers (c : Cache) (url : String) : List (String × String) :=
  match cacheFind c url with
  | some e => e.headers
  | none => []

/-- `HttpCache.remove`: drop the cached content and header files of a URL. -/
def remove (c : Cache) (url : String) : Cache :=
  match c with
  | [] => []
  | p :: rest => if p.1 = url then remove rest url else p :: remove rest url

/-- Write the response body and headers to the cache files of a URL. -/
def store (c : Cache) (url : String) (content : List Nat)
    (headers : List (String × String)) : Cache :=
  remove c url ++ [(url, ⟨content, headers⟩)]

/-- Everything `HttpCache.update` produces: the request headers it sent,
the HTTP response, the new cache state and the returned Boolean. -/
structure UpdateResult where
  requestHeaders : List (String × String)
  response : Response
  cache : Cache
  updated : Bool

/-- The headers `HttpCache.update` sends: conditional GET headers built
from the cached response headers, unless `force` asks for a fresh copy. -/
def requestHeadersFor (cachedHeaders : List (String × String))
    (force : Bool) : List (String × String) :=
  if force then [("Cache-Control", "no-cache")]
  else
    (match hfind cachedHeaders "last-modified" with
     | some v => [("If-Modified-Since", v)]
     | none => []) ++
    (match hfind cachedHeaders "etag" with
     | some v => [("If-None-Match", v)]
     | none => [])

/-- The cache state `HttpCache.update` leaves behind: invalidated when the
response is not ok, rewritten from the response on a 200, untouched
otherwise. -/
def cacheAfter (c : Cache) (url : String) (invalidateCache : Bool)
    (resp : Response) : Cache :=
  if !resp.ok then
    if invalidateCache then remove c url else c
  else if resp.statusCode = 200 then
    store c url resp.content resp.headers
  else c

/-- `HttpCache.update`: performs a conditional GET request (unless `force`)
and refreshes the cache from the response. The network is abstracted as the
function `server` from the request headers to the response. -/
def update (c : Cache) (url : String) (force invalidateCache : Bool)
    (server : List (String × String) → Response) : UpdateResult :=
  let reqHeaders := requestHeadersFor (get_headers c url) force
  let response := server reqHeaders
  ⟨reqHeaders, response, cacheAfter c url invalidateCache response,
   response.statusCode ≠ 304⟩

end HttpCache

/-! ### The repository synchronization task

The implementation module `distro_tracker/core/retrieve_data.py` is not part
of the sources at hand, so the reconciliation performed by
`UpdateRepositoriesTask.execute()` is modelled from the specification text:
a set of idempotent tasks that parse APT Sources/Packages files and
reconcile them against the relational data model, adding, updating and
removing source and binary package records, remapping renamed binaries,
and leaving records that originate from non-updated files untouched. -/

/-- A stanza of an APT `Sources` file: source package name, version, the
`.dsc` file name and the names of the binary packages it builds. -/
structure Stanza where
  package : String
  version : String
  dscFileName : String
  binaries : List String
deriving DecidableEq

/-- A stanza of an APT `Packages` file: binary package name, the source
package it is built from, and the binary version. -/
structure BinStanza where
  package : String
  source : String
  version : String
deriving DecidableEq

/-- Modelled from the spec: a `SourcePackage` database record (one version
of a source package) of the relational data model, whose declaration
(core/models.py) is missing from the sources at hand. -/
structure SrcPkg where
  name : String
  version : String
  dscFileName : String
  binaries : List String
deriving DecidableEq

/-- The record a Sources stanza describes. -/
def Stanza.record (s : Stanza) : SrcPkg :=
  ⟨s.package, s.version, s.dscFileName, s.binaries⟩

/-- Modelled from the spec: the relational state the task reconciles,
whose declarations (core/models.py) are missing from the sources at hand:
the `SourcePackageName`,
`SourcePackage`, `SourcePackageRepositoryEntry`, `BinaryPackageName` tables,
the main-source-package mapping of binary package names, and the
`BinaryPackageRepositoryEntry` table (the last two keyed by name). -/
structure DB where
  srcNames : List String
  srcPkgs : List SrcPkg
  srcEntries : List (String × String)
  binNames : List String
  mainSource : List (String × String)
  binEntries : List (String × String)
deriving DecidableEq

/-- Whether a `SourcePackage` record with the given name and version exists. -/
def hasSrcPkg (l : List SrcPkg) (n v : String) : Bool :=
  l.any (fun r => r.name = n ∧ r.version = v)

/-- Modelled from the spec: create or update the `SourcePackage` record
described by a stanza:
an existing record with the same name and version is updated in place,
otherwise a new record is appended. -/
def putSrcPkg (l : List SrcPkg) (s : Stanza) : List SrcPkg :=
  if hasSrcPkg l s.package s.version then
    l.map (fun r => if r.name = s.package ∧ r.version = s.version then s.record else r)
  else l ++ [s.record]

/-- Whether some stanza of the list has the given name and version. -/
def stanzaKeyMem (all : List Stanza) (n v : String) : Bool :=
  all.any (fun t => t.package = n ∧ t.version = v)

namespace UpdateRepositoriesTask

/-- Modelled from the spec: process one Sources stanza — ensure the
source package name, the `SourcePackage` record, and the repository entry
exist and are up to date, ensure each listed binary package name exists,
and remap each listed binary to this source package. -/
def addStanza (db : DB) (s : Stanza) : DB :=
  { db with
    srcNames := insertIfAbsent db.srcNames s.package
    srcPkgs := putSrcPkg db.srcPkgs s
    srcEntries := insertIfAbsent db.srcEntries (s.package, s.version)
    binNames := s.binaries.foldl insertIfAbsent db.binNames
    mainSource := s.binaries.foldl (fun m b => setAssoc m b s.package) db.mainSource }

/-- Modelled from the spec: process every stanza of the updated Sources
files in order. -/
def addStanzas (db : DB) (l : List Stanza) : DB := l.foldl addStanza db

/-- Modelled from the spec: drop repository entries whose name and version
are in none of the repository's Sources files. -/
def gcEntries (es : List (String × String)) (all : List Stanza) :
    List (String × String) :=
  es.filter (fun e => stanzaKeyMem all e.1 e.2)

/-- Modelled from the spec: drop `SourcePackage` records left without a
repository entry. -/
def gcPkgs (pkgs : List SrcPkg) (es : List (String × String)) : List SrcPkg :=
  pkgs.filter (fun r => es.any (fun e => e.1 = r.name ∧ e.2 = r.version))

/-- Modelled from the spec: drop source package names left without any
`SourcePackage` record. -/
def gcNames (ns : List String) (pkgs : List SrcPkg) : List String :=
  ns.filter (fun n => pkgs.any (fun r => r.name = n))

/-- Modelled from the spec: drop binary package names no longer built by
any remaining record. -/
def gcBins (bs : List String) (pkgs : List SrcPkg) : List String :=
  bs.filter (fun b => pkgs.any (fun r => b ∈ r.binaries))

/-- Modelled from the spec: restrict the main-source mapping to the
remaining binary names. -/
def gcMain (m : List (String × String)) (bs : List String) :
    List (String × String) :=
  m.filter (fun p => p.1 ∈ bs)

/-- Modelled from the spec: garbage collection after the update — drop
repository entries whose name and version are in none of the repository's
Sources files, drop `SourcePackage` records left without a repository
entry, drop source package names left without any `SourcePackage` record,
drop binary package names no longer built by any remaining record, and
restrict the main-source mapping to the remaining binary names. -/
def gcSources (db : DB) (all : List Stanza) : DB :=
  let entries2 := gcEntries db.srcEntries all
  let pkgs2 := gcPkgs db.srcPkgs entries2
  let bins2 := gcBins db.binNames pkgs2
  { db with srcNames := gcNames db.srcNames pkgs2, srcPkgs := pkgs2,
            srcEntries := entries2, binNames := bins2,
            mainSource := gcMain db.mainSource bins2 }

/-- Modelled from the spec: reconcile the repository's binary entries with
an updated Packages file, when one was updated — every listed binary gets
an entry, and entries absent from the updated file are removed. -/
def applyPackages (db : DB) (pf : Option (List BinStanza)) : DB :=
  match pf with
  | none => db
  | some l =>
    let inserted := l.foldl
      (fun es bs => insertIfAbsent es (bs.package, bs.version)) db.binEntries
    let kept := inserted.filter
      (fun e => l.any (fun bs => bs.package = e.1 ∧ bs.version = e.2))
    { db with binEntries := kept }

/-- Modelled from the spec: the full reconciliation over parsed data. -/
def reconcile (db : DB) (stanzas all : List Stanza)
    (pf : Option (List BinStanza)) : DB :=
  applyPackages (gcSources (addStanzas db stanzas) all) pf

/-- Combine the parse results of the updated Sources files: the run fails
as soon as one of the files is invalid. -/
def parseAll : List (Option (List Stanza)) → Option (List Stanza)
  | [] => some []
  | none :: _ => none
  | some f :: rest =>
    match parseAll rest with
    | some l => some (f ++ l)
    | none => none

/-- The input of one run: the parse result of each updated Sources file,
the stanzas of all of the repository's Sources files, and the stanzas of
the updated Packages file if one was updated. -/
structure TaskInput where
  updatedSources : List (Option (List Stanza))
  allSources : List Stanza
  updatedPackages : Option (List BinStanza)

/-- Modelled from the spec: `UpdateRepositoriesTask.execute()` — parse the
updated Sources files, abort without touching the database when a file is
invalid, and otherwise reconcile the parsed data against the database. -/
def execute (db : DB) (inp : TaskInput) : Except Unit DB :=
  match parseAll inp.updatedSources with
  | none => Except.error ()
  | some stanzas => Except.ok (reconcile db stanzas inp.allSources inp.updatedPackages)

end UpdateRepositoriesTask

/-- A network that always answers with the same response. -/
def constServer (r : Response) : List (String × String) → Response := fun _ => r

/-- Invariant: the binding of binary name `b` exists and every binding of
`b` carries the main source package name `v`. -/
def goodBind (m : List (String × String)) (b v : String) : Prop :=
  (lookupKey m b).isSome ∧ ∀ p ∈ m, p.1 = b → p.2 = v

/-- Invariant: the record described by stanza `s` is in the table and every
record with its name and version coincides with it. -/
def goodKey (l : List SrcPkg) (s : Stanza) : Prop :=
  s.record ∈ l ∧
  ∀ r ∈ l, r.name = s.package → r.version = s.version → r = s.record

/-- Invariant: all the records a stanza describes are present in the
database, with the stanza's exact content. -/
def stanzaPresent (db : DB) (s : Stanza) : Prop :=
  s.package ∈ db.srcNames ∧
  goodKey db.srcPkgs s ∧
  (s.package, s.version) ∈ db.srcEntries ∧
  (∀ b ∈ s.binaries, b ∈ db.binNames) ∧
  (∀ b ∈ s.binaries, goodBind db.mainSource b s.package)

/-- Sample stanza used by the concrete witnesses. -/
def wStanza : Stanza := ⟨"chromium", "27.0", "chromium_27.0.dsc", ["chromium-bin"]⟩

/-- Sample second stanza used by the concrete witnesses. -/
def wStanza2 : Stanza := ⟨"dummy", "1.0", "dummy_1.0.dsc", ["dummy-bin"]⟩

/-- Sample empty database used by the concrete witnesses. -/
def emptyDB : DB := ⟨[], [], [], [], [], []⟩

/-! ## Helper lemmas -/

theorem lookupKey_isSome_iff (m : List (String × String)) (k : String) :
    (lookupKey m k).isSome ↔ ∃ p ∈ m, p.1 = k := by
  induction m with
  | nil => simp [lookupKey]
  | cons p rest ih =>
    by_cases h : p.1 = k
    · simp only [lookupKey, if_pos h, Option.isSome_some, true_iff]
      exact ⟨p, List.mem_cons_self p rest, h⟩
    · rw [lookupKey, if_neg h, ih]
      constructor
      · rintro ⟨q, hq, hqk⟩
        exact ⟨q, List.mem_cons_of_mem p hq, hqk⟩
      · rintro ⟨q, hq, hqk⟩
        rcases List.mem_cons.mp hq with rfl | hq2
        · exact absurd hqk h
        · exact ⟨q, hq2, hqk⟩

theorem lookupKey_mem_values {m : List (String × String)} {k v : String}
    (h : lookupKey m k = some v) : ∃ p ∈ m, p.1 = k ∧ p.2 = v := by
  induction m with
  | nil => simp [lookupKey] at h
  | cons p rest ih =>
    by_cases hp : p.1 = k
    · rw [lookupKey, if_pos hp] at h
      injection h with h
      exact ⟨p, List.mem_cons_self p rest, hp, h⟩
    · rw [lookupKey, if_neg hp] at h
      obtain ⟨q, hq, hqk, hqv⟩ := ih h
      exact ⟨q, List.mem_cons_of_mem p hq, hqk, hqv⟩

namespace HttpCache

theorem cacheFind_remove (c : Cache) (url : String) :
    cacheFind (remove c url) url = none := by
  induction c with
  | nil => rfl
  | cons p rest ih =>
    by_cases h : p.1 = url
    · simpa [remove, h] using ih
    · simpa [remove, cacheFind, h] using ih

theorem cacheFind_append_of_none {c1 : Cache} {url : String}
    (h : cacheFind c1 url = none) (c2 : Cache) :
    cacheFind (c1 ++ c2) url = cacheFind c2 url := by
  induction c1 with
  | nil => rfl
  | cons p rest ih =>
    by_cases hp : p.1 = url
    · rw [cacheFind, if_pos hp] at h
      exact absurd h (by simp)
    · rw [cacheFind, if_neg hp] at h
      rw [List.cons_append, cacheFind, if_neg hp]
      exact ih h

theorem cacheFind_store (c : Cache) (url : String) (content : List Nat)
    (headers : List (String × String)) :
    cacheFind (store c url content headers) url = some ⟨content, headers⟩ := by
  rw [store, cacheFind_append_of_none (cacheFind_remove c url)]
  simp [cacheFind]

end HttpCache

/-! ## Claim theorems about the HTTP layer and utilities -/

/-- C10: for every shorthand string that is not a key of
`VCS_SHORTHAND_TO_NAME`, `get_vcs_name` returns the shorthand itself
unchanged (not an empty string), and for every known shorthand it returns
the mapped full VCS name. -/
theorem get_vcs_name_spec :
    (∀ s, lookupKey VCS_SHORTHAND_TO_NAME s = none → get_vcs_name s = s) ∧
    (∀ s n, lookupKey VCS_SHORTHAND_TO_NAME s = some n → get_vcs_name s = n) := by
  constructor
  · intro s h
    simp [get_vcs_name, h]
  · intro s n h
    simp [get_vcs_name, h]

theorem get_vcs_name_spec_witness :
    get_vcs_name "arch" = "arch" ∧ get_vcs_name "git" = "Git" :=
  ⟨get_vcs_name_spec.1 "arch" (by decide),
   get_vcs_name_spec.2 "git" "Git" (by decide)⟩

/-- C5: for a URL whose cached headers contain last-modified and/or etag,
`HttpCache.update` with `force = false` issues the request with
If-Modified-Since and/or If-None-Match set to exactly those cached values
(and omits a conditional header whose source header is not cached), while
with `force = true` it sends neither conditional header and sends
Cache-Control: no-cache instead. -/
theorem HttpCache.update_conditional_get (c : Cache) (url : String)
    (invc : Bool) (server : List (String × String) → Response) :
    (∀ lm, hfind (get_headers c url) "last-modified" = some lm →
      hfind (update c url false invc server).requestHeaders "If-Modified-Since"
        = some lm) ∧
    (∀ et, hfind (get_headers c url) "etag" = some et →
      hfind (update c url false invc server).requestHeaders "If-None-Match"
        = some et) ∧
    (hfind (get_headers c url) "last-modified" = none →
      hfind (update c url false invc server).requestHeaders "If-Modified-Since"
        = none) ∧
    (hfind (get_headers c url) "etag" = none →
      hfind (update c url false invc server).requestHeaders "If-None-Match"
        = none) ∧
    hfind (update c url true invc server).requestHeaders "If-Modified-Since"
      = none ∧
    hfind (update c url true invc server).requestHeaders "If-None-Match"
      = none ∧
    hfind (update c url true invc server).requestHeaders "Cache-Control"
      = some "no-cache" := by
  have h1 : lowerStr "If-None-Match" ≠ lowerStr "If-Modified-Since" := by decide
  have h2 : lowerStr "Cache-Control" ≠ lowerStr "If-Modified-Since" := by decide
  have h3 : lowerStr "Cache-Control" ≠ lowerStr "If-None-Match" := by decide
  have h4 : lowerStr "If-Modified-Since" ≠ lowerStr "If-None-Match" := by decide
  refine ⟨?_, ?_, ?_, ?_, ?_, ?_, ?_⟩
  · intro lm hlm
    simp [update, requestHeadersFor, hlm, hfind]
  · intro et het
    rcases hlm : hfind (get_headers c url) "last-modified" with _ | lm <;>
      simp [update, requestHeadersFor, hlm, het, hfind, h1, h4]
  · intro hlm
    rcases het : hfind (get_headers c url) "etag" with _ | et <;>
      simp [update, requestHeadersFor, hlm, het, hfind, h1]
  · intro het
    rcases hlm : hfind (get_headers c url) "last-modified" with _ | lm <;>
      simp [update, requestHeadersFor, hlm, het, hfind, h4]
  · simp [update, requestHeadersFor, hfind, h2]
  · simp [update, requestHeadersFor, hfind, h3]
  · simp [update, requestHeadersFor, hfind]

theorem HttpCache.update_conditional_get_witness :
    hfind (HttpCache.update
        [("u", ⟨[1], [("Last-Modified", "Wed"), ("ETag", "abc")]⟩)] "u"
        false true (constServer ⟨200, [], []⟩)).requestHeaders
      "If-Modified-Since" = some "Wed" ∧
    hfind (HttpCache.update
        [("u", ⟨[1], [("Last-Modified", "Wed"), ("ETag", "abc")]⟩)] "u"
        true true (constServer ⟨200, [], []⟩)).requestHeaders
      "Cache-Control" = some "no-cache" :=
  ⟨(HttpCache.update_conditional_get
      [("u", ⟨[1], [("Last-Modified", "Wed"), ("ETag", "abc")]⟩)] "u"
      true (constServer ⟨200, [], []⟩)).1 "Wed" (by decide),
   (HttpCache.update_conditional_get
      [("u", ⟨[1], [("Last-Modified", "Wed"), ("ETag", "abc")]⟩)] "u"
      true (constServer ⟨200, [], []⟩)).2.2.2.2.2.2⟩

/-- C6: `HttpCache.update` returns a pair whose Boolean component is False
exactly when the HTTP response status code is 304, and the response body
and headers are written to the cache if and only if the status code is 200
(for any other status the cache is either untouched or merely
invalidated). -/
theorem HttpCache.update_change_detection (c : Cache) (url : String)
    (force invc : Bool) (server : List (String × String) → Response)
    (r : UpdateResult) (hr : update c url force invc server = r) :
    (r.updated = false ↔ r.response.statusCode = 304) ∧
    (r.response.statusCode = 200 →
      cacheFind r.cache url = some ⟨r.response.content, r.response.headers⟩) ∧
    (r.response.statusCode ≠ 200 → r.cache = c ∨ r.cache = remove c url) := by
  subst hr
  simp only [update]
  set resp := server (requestHeadersFor (get_headers c url) force) with hresp
  refine ⟨?_, ?_, ?_⟩
  · by_cases h : resp.statusCode = 304 <;> simp [h]
  · intro h
    have hok : resp.ok = true := by
      simp [Response.ok, h]
    simp only [cacheAfter, hok, Bool.not_true, Bool.false_eq_true, if_false,
      h, if_pos rfl]
    exact cacheFind_store c url _ _
  · intro h
    by_cases hok : resp.ok = true
    · simp [cacheAfter, hok, h]
    · simp only [Bool.not_eq_true] at hok
      simp only [cacheAfter, hok, Bool.not_false, if_pos rfl]
      by_cases hinv : invc <;> simp [hinv]

theorem HttpCache.update_change_detection_witness :
    cacheFind (HttpCache.update [] "u" false true
        (constServer ⟨200, [7], [("A", "B")]⟩)).cache "u"
      = some ⟨[7], [("A", "B")]⟩ ∧
    (HttpCache.update [] "u" false true (constServer ⟨304, [], []⟩)).updated
      = false :=
  ⟨(HttpCache.update_change_detection [] "u" false true
      (constServer ⟨200, [7], [("A", "B")]⟩) _ rfl).2.1 (by decide),
   (HttpCache.update_change_detection [] "u" false true
      (constServer ⟨304, [], []⟩) _ rfl).1.mpr (by decide)⟩

/-- C9: when `HttpCache.update` is called with `invalidate_cache = True`
and the HTTP response is not ok, the cached content and header files of
the URL are removed: afterwards the URL is no longer in the cache and
`get_headers` returns an empty dict. -/
theorem HttpCache.update_invalidates_on_failure (c : Cache) (url : String)
    (force : Bool) (server : List (String × String) → Response)
    (r : UpdateResult) (hr : update c url force true server = r)
    (hok : r.response.ok = false) :
    containsUrl r.cache url = false ∧ get_headers r.cache url = [] := by
  subst hr
  simp only [update] at hok ⊢
  simp only [cacheAfter, hok, Bool.not_false, if_pos rfl]
  constructor
  · simp [containsUrl, cacheFind_remove]
  · simp [get_headers, cacheFind_remove]

theorem HttpCache.update_invalidates_on_failure_witness :
    containsUrl (HttpCache.update [("u", ⟨[1], [("ETag", "abc")]⟩)] "u" false
        true (constServer ⟨404, [], []⟩)).cache "u" = false ∧
    HttpCache.get_headers (HttpCache.update [("u", ⟨[1], [("ETag", "abc")]⟩)]
        "u" false true (constServer ⟨404, [], []⟩)).cache "u" = [] :=
  HttpCache.update_invalidates_on_failure [("u", ⟨[1], [("ETag", "abc")]⟩)]
    "u" false (constServer ⟨404, [], []⟩) _ rfl (by decide)

/-! ## Lemmas about the reconciliation primitives -/

theorem map_eq_self_of {α : Type} {l : List α} {f : α → α}
    (h : ∀ x ∈ l, f x = x) : l.map f = l := by
  induction l with
  | nil => rfl
  | cons a rest ih =>
    rw [List.map_cons, h a (List.mem_cons_self a rest),
      ih (fun x hx => h x (List.mem_cons_of_mem a hx))]

theorem filter_idem {α : Type} (l : List α) (p : α → Bool) :
    (l.filter p).filter p = l.filter p :=
  List.filter_eq_self.mpr (fun _ ha => (List.mem_filter.mp ha).2)

theorem insertIfAbsent_of_mem {α : Type} [DecidableEq α] {l : List α} {a : α}
    (h : a ∈ l) : insertIfAbsent l a = l := by
  simp [insertIfAbsent, h]

theorem self_mem_insertIfAbsent {α : Type} [DecidableEq α] (l : List α)
    (a : α) : a ∈ insertIfAbsent l a := by
  by_cases h : a ∈ l <;> simp [insertIfAbsent, h]

theorem mem_insertIfAbsent {α : Type} [DecidableEq α] {l : List α} {b : α}
    (a : α) (h : b ∈ l) : b ∈ insertIfAbsent l a := by
  by_cases ha : a ∈ l <;> simp [insertIfAbsent, ha, h]

theorem foldl_insertIfAbsent_id {α : Type} [DecidableEq α] {bs l : List α}
    (h : ∀ b ∈ bs, b ∈ l) : bs.foldl insertIfAbsent l = l := by
  induction bs with
  | nil => rfl
  | cons b rest ih =>
    rw [List.foldl_cons, insertIfAbsent_of_mem (h b (List.mem_cons_self b rest))]
    exact ih (fun x hx => h x (List.mem_cons_of_mem b hx))

theorem mem_foldl_insertIfAbsent {α : Type} [DecidableEq α] {l : List α}
    {a : α} (bs : List α) (h : a ∈ l) : a ∈ bs.foldl insertIfAbsent l := by
  induction bs generalizing l with
  | nil => exact h
  | cons b rest ih => exact ih (mem_insertIfAbsent b h)

theorem self_mem_foldl_insertIfAbsent {α : Type} [DecidableEq α] {bs : List α}
    {b : α} (l : List α) (h : b ∈ bs) : b ∈ bs.foldl insertIfAbsent l := by
  induction bs generalizing l with
  | nil => cases h
  | cons a rest ih =>
    rcases List.mem_cons.mp h with rfl | hb
    · exact mem_foldl_insertIfAbsent rest (self_mem_insertIfAbsent l b)
    · exact ih _ hb

theorem foldl_insertMap_id {α β : Type} [DecidableEq α] (g : β → α)
    {xs : List β} {l : List α} (h : ∀ x ∈ xs, g x ∈ l) :
    xs.foldl (fun acc x => insertIfAbsent acc (g x)) l = l := by
  induction xs with
  | nil => rfl
  | cons x rest ih =>
    rw [List.foldl_cons, insertIfAbsent_of_mem (h x (List.mem_cons_self x rest))]
    exact ih (fun y hy => h y (List.mem_cons_of_mem x hy))

theorem mem_foldl_insertMap {α β : Type} [DecidableEq α] (g : β → α)
    {l : List α} {a : α} (xs : List β) (h : a ∈ l) :
    a ∈ xs.foldl (fun acc x => insertIfAbsent acc (g x)) l := by
  induction xs generalizing l with
  | nil => exact h
  | cons x rest ih => exact ih (mem_insertIfAbsent (g x) h)

theorem self_mem_foldl_insertMap {α β : Type} [DecidableEq α] (g : β → α)
    {xs : List β} {x : β} (l : List α) (h : x ∈ xs) :
    g x ∈ xs.foldl (fun acc x2 => insertIfAbsent acc (g x2)) l := by
  induction xs generalizing l with
  | nil => cases h
  | cons y rest ih =>
    rcases List.mem_cons.mp h with rfl | hx
    · exact mem_foldl_insertMap g rest (self_mem_insertIfAbsent l (g x))
    · exact ih _ hx

theorem foldl_insertBinEntry_id {l : List BinStanza}
    {es : List (String × String)}
    (h : ∀ x ∈ l, (x.package, x.version) ∈ es) :
    l.foldl (fun es2 x => insertIfAbsent es2 (x.package, x.version)) es = es := by
  induction l with
  | nil => rfl
  | cons x rest ih =>
    rw [List.foldl_cons, insertIfAbsent_of_mem (h x (List.mem_cons_self x rest))]
    exact ih (fun y hy => h y (List.mem_cons_of_mem x hy))

theorem mem_foldl_insertBinEntry {es : List (String × String)}
    {e : String × String} (l : List BinStanza) (h : e ∈ es) :
    e ∈ l.foldl (fun es2 x => insertIfAbsent es2 (x.package, x.version)) es := by
  induction l generalizing es with
  | nil => exact h
  | cons x rest ih => exact ih (mem_insertIfAbsent (x.package, x.version) h)

theorem self_mem_foldl_insertBinEntry {l : List BinStanza} {x : BinStanza}
    (es : List (String × String)) (h : x ∈ l) :
    (x.package, x.version) ∈
      l.foldl (fun es2 x2 => insertIfAbsent es2 (x2.package, x2.version)) es := by
  induction l generalizing es with
  | nil => cases h
  | cons y rest ih =>
    rcases List.mem_cons.mp h with rfl | hx
    · exact mem_foldl_insertBinEntry rest
        (self_mem_insertIfAbsent es (x.package, x.version))
    · exact ih _ hx

/-! ## Lemmas about the main-source mapping -/

theorem goodBind_lookup {m : List (String × String)} {b v : String}
    (h : goodBind m b v) : lookupKey m b = some v := by
  obtain ⟨h1, h2⟩ := h
  obtain ⟨w, hw⟩ := Option.isSome_iff_exists.mp h1
  obtain ⟨p, hp, hpk, hpv⟩ := lookupKey_mem_values hw
  have hv : w = v := by
    rw [← hpv]
    exact h2 p hp hpk
  rw [hw, hv]

theorem setAssoc_goodBind (m : List (String × String)) (b v : String) :
    goodBind (setAssoc m b v) b v := by
  unfold setAssoc
  by_cases h : (lookupKey m b).isSome
  · rw [if_pos h]
    obtain ⟨p, hp, hpk⟩ := (lookupKey_isSome_iff m b).mp h
    constructor
    · rw [lookupKey_isSome_iff]
      refine ⟨(b, v), List.mem_map.mpr ⟨p, hp, ?_⟩, rfl⟩
      rw [if_pos hpk]
    · intro q hq hqb
      obtain ⟨p2, hp2, him⟩ := List.mem_map.mp hq
      by_cases hp2b : p2.1 = b
      · rw [if_pos hp2b] at him
        rw [← him]
      · rw [if_neg hp2b] at him
        exact absurd (him ▸ hqb) hp2b
  · rw [if_neg h]
    constructor
    · rw [lookupKey_isSome_iff]
      exact ⟨(b, v), List.mem_append_right m (List.mem_singleton_self _), rfl⟩
    · intro q hq hqb
      rcases List.mem_append.mp hq with hq | hq
      · exact absurd ((lookupKey_isSome_iff m b).mpr ⟨q, hq, hqb⟩) h
      · rw [List.mem_singleton.mp hq]

theorem setAssoc_preserve {m : List (String × String)} {b v k w : String}
    (hk : k ≠ b) (h : goodBind m b v) : goodBind (setAssoc m k w) b v := by
  obtain ⟨h1, h2⟩ := h
  unfold setAssoc
  by_cases hs : (lookupKey m k).isSome
  · rw [if_pos hs]
    constructor
    · rw [lookupKey_isSome_iff] at h1 ⊢
      obtain ⟨p, hp, hpk⟩ := h1
      refine ⟨p, List.mem_map.mpr ⟨p, hp, ?_⟩, hpk⟩
      rw [if_neg (fun hc => hk (by rw [← hc, hpk]))]
    · intro q hq hqb
      obtain ⟨p2, hp2, him⟩ := List.mem_map.mp hq
      by_cases hp2k : p2.1 = k
      · rw [if_pos hp2k] at him
        rw [← him] at hqb
        exact absurd hqb hk
      · rw [if_neg hp2k] at him
        exact h2 q (him ▸ hp2) hqb
  · rw [if_neg hs]
    constructor
    · rw [lookupKey_isSome_iff] at h1 ⊢
      obtain ⟨p, hp, hpk⟩ := h1
      exact ⟨p, List.mem_append_left _ hp, hpk⟩
    · intro q hq hqb
      rcases List.mem_append.mp hq with hq | hq
      · exact h2 q hq hqb
      · rw [List.mem_singleton.mp hq] at hqb
        exact absurd hqb hk

theorem setAssoc_same {m : List (String × String)} {b v : String}
    (h : goodBind m b v) : setAssoc m b v = m := by
  obtain ⟨h1, h2⟩ := h
  rw [setAssoc, if_pos h1]
  apply map_eq_self_of
  intro p hp
  by_cases hpb : p.1 = b
  · rw [if_pos hpb]
    obtain ⟨p1, p2⟩ := p
    have hpb2 : p1 = b := hpb
    have hv : p2 = v := h2 (p1, p2) hp hpb
    rw [hpb2, hv]
  · rw [if_neg hpb]

theorem inner_setAssoc_preserve {bs : List String}
    {m : List (String × String)} {b v w : String} (h : goodBind m b v)
    (hcond : ∀ b2 ∈ bs, b2 = b → w = v) :
    goodBind (bs.foldl (fun m2 b2 => setAssoc m2 b2 w) m) b v := by
  induction bs generalizing m with
  | nil => exact h
  | cons b2 rest ih =>
    rw [List.foldl_cons]
    refine ih ?_ (fun x hx => hcond x (List.mem_cons_of_mem b2 hx))
    by_cases hb2 : b2 = b
    · rw [hb2, hcond b2 (List.mem_cons_self b2 rest) hb2]
      exact setAssoc_goodBind m b v
    · exact setAssoc_preserve hb2 h

theorem inner_setAssoc_establish {bs : List String}
    {m : List (String × String)} {b w : String} (hb : b ∈ bs) :
    goodBind (bs.foldl (fun m2 b2 => setAssoc m2 b2 w) m) b w := by
  induction bs generalizing m with
  | nil => cases hb
  | cons b2 rest ih =>
    rw [List.foldl_cons]
    by_cases hb2 : b = b2
    · subst hb2
      exact inner_setAssoc_preserve (setAssoc_goodBind m b w)
        (fun x _ _ => rfl)
    · exact ih (List.mem_cons.mp hb |>.resolve_left hb2)

theorem outer_setAssoc_preserve {stanzas : List Stanza}
    {m : List (String × String)} {b v : String} (h : goodBind m b v)
    (hst : ∀ u ∈ stanzas, ∀ b2 ∈ u.binaries, b2 = b → u.package = v) :
    goodBind (stanzas.foldl
      (fun m2 u => u.binaries.foldl (fun m3 b2 => setAssoc m3 b2 u.package) m2)
      m) b v := by
  induction stanzas generalizing m with
  | nil => exact h
  | cons u rest ih =>
    rw [List.foldl_cons]
    refine ih ?_ (fun x hx => hst x (List.mem_cons_of_mem u hx))
    exact inner_setAssoc_preserve h (hst u (List.mem_cons_self u rest))

theorem mainSource_after_fold {stanzas : List Stanza}
    {m : List (String × String)} {t : Stanza} {b : String}
    (ht : t ∈ stanzas) (hb : b ∈ t.binaries)
    (huniq : ∀ u ∈ stanzas, ∀ b2 ∈ u.binaries, b2 = b → u.package = t.package) :
    goodBind (stanzas.foldl
      (fun m2 u => u.binaries.foldl (fun m3 b2 => setAssoc m3 b2 u.package) m2)
      m) b t.package := by
  induction stanzas generalizing m with
  | nil => cases ht
  | cons u rest ih =>
    rw [List.foldl_cons]
    by_cases htu : t ∈ rest
    · exact ih htu (fun x hx => huniq x (List.mem_cons_of_mem u hx))
    · have hut : t = u := by
        rcases List.mem_cons.mp ht with h | h
        · exact h
        · exact absurd h htu
      subst hut
      refine outer_setAssoc_preserve (inner_setAssoc_establish hb) ?_
      intro x hx b2 hb2 hb2b
      exact huniq x (List.mem_cons_of_mem t hx) b2 hb2 hb2b

/-! ## Lemmas about the source package table -/

theorem hasSrcPkg_iff (l : List SrcPkg) (n v : String) :
    hasSrcPkg l n v = true ↔ ∃ r ∈ l, r.name = n ∧ r.version = v := by
  simp [hasSrcPkg]

theorem putSrcPkg_goodKey (l : List SrcPkg) (s : Stanza) :
    goodKey (putSrcPkg l s) s := by
  unfold putSrcPkg
  by_cases h : hasSrcPkg l s.package s.version = true
  · rw [if_pos h]
    obtain ⟨r, hr, hrn, hrv⟩ := (hasSrcPkg_iff l s.package s.version).mp h
    constructor
    · refine List.mem_map.mpr ⟨r, hr, ?_⟩
      rw [if_pos ⟨hrn, hrv⟩]
    · intro r2 hr2 hn hv
      obtain ⟨r0, hr0, him⟩ := List.mem_map.mp hr2
      by_cases h0 : r0.name = s.package ∧ r0.version = s.version
      · rw [if_pos h0] at him
        rw [← him]
      · rw [if_neg h0] at him
        exact absurd ⟨him ▸ hn, him ▸ hv⟩ h0
  · rw [if_neg h]
    constructor
    · exact List.mem_append_right l (List.mem_singleton_self _)
    · intro r hr hn hv
      rcases List.mem_append.mp hr with hr | hr
      · exact absurd ((hasSrcPkg_iff l s.package s.version).mpr ⟨r, hr, hn, hv⟩) h
      · exact List.mem_singleton.mp hr

theorem putSrcPkg_preserve {l : List SrcPkg} {s t : Stanza}
    (hne : ¬(t.package = s.package ∧ t.version = s.version))
    (h : goodKey l s) : goodKey (putSrcPkg l t) s := by
  obtain ⟨h1, h2⟩ := h
  unfold putSrcPkg
  by_cases ht : hasSrcPkg l t.package t.version = true
  · rw [if_pos ht]
    constructor
    · refine List.mem_map.mpr ⟨s.record, h1, ?_⟩
      rw [if_neg]
      intro hc
      exact hne ⟨hc.1.symm ▸ rfl, hc.2.symm ▸ rfl⟩
    · intro r hr hn hv
      obtain ⟨r0, hr0, him⟩ := List.mem_map.mp hr
      by_cases h0 : r0.name = t.package ∧ r0.version = t.version
      · rw [if_pos h0] at him
        rw [← him] at hn hv
        exact absurd ⟨hn, hv⟩ hne
      · rw [if_neg h0] at him
        exact h2 r (him ▸ hr0) hn hv
  · rw [if_neg ht]
    constructor
    · exact List.mem_append_left _ h1
    · intro r hr hn hv
      rcases List.mem_append.mp hr with hr | hr
      · exact h2 r hr hn hv
      · rw [List.mem_singleton.mp hr] at hn hv
        exact absurd ⟨hn, hv⟩ hne

theorem putSrcPkg_id {l : List SrcPkg} {s : Stanza} (h : goodKey l s) :
    putSrcPkg l s = l := by
  obtain ⟨h1, h2⟩ := h
  have hh : hasSrcPkg l s.package s.version = true :=
    (hasSrcPkg_iff l s.package s.version).mpr ⟨s.record, h1, rfl, rfl⟩
  rw [putSrcPkg, if_pos hh]
  apply map_eq_self_of
  intro r hr
  by_cases h0 : r.name = s.package ∧ r.version = s.version
  · rw [if_pos h0, h2 r hr h0.1 h0.2]
  · rw [if_neg h0]

theorem putSrcPkg_mem {l : List SrcPkg} {r : SrcPkg} {t : Stanza}
    (h : r ∈ l) (hne : ¬(r.name = t.package ∧ r.version = t.version)) :
    r ∈ putSrcPkg l t := by
  unfold putSrcPkg
  by_cases ht : hasSrcPkg l t.package t.version = true
  · rw [if_pos ht]
    refine List.mem_map.mpr ⟨r, h, ?_⟩
    rw [if_neg hne]
  · rw [if_neg ht]
    exact List.mem_append_left _ h

theorem putSrcPkg_keys {l : List SrcPkg} {r : SrcPkg} {t : Stanza}
    (h : r ∈ putSrcPkg l t) :
    (∃ r0 ∈ l, r.name = r0.name ∧ r.version = r0.version) ∨
    (r.name = t.package ∧ r.version = t.version) := by
  unfold putSrcPkg at h
  by_cases ht : hasSrcPkg l t.package t.version = true
  · rw [if_pos ht] at h
    obtain ⟨r0, hr0, him⟩ := List.mem_map.mp h
    by_cases h0 : r0.name = t.package ∧ r0.version = t.version
    · rw [if_pos h0] at him
      right
      rw [← him]
      exact ⟨rfl, rfl⟩
    · rw [if_neg h0] at him
      left
      exact ⟨r0, hr0, him ▸ rfl, him ▸ rfl⟩
  · rw [if_neg ht] at h
    rcases List.mem_append.mp h with h | h
    · exact Or.inl ⟨r, h, rfl, rfl⟩
    · right
      rw [List.mem_singleton.mp h]
      exact ⟨rfl, rfl⟩

theorem foldl_putSrcPkg_keep {stanzas : List Stanza} {l : List SrcPkg}
    {s : Stanza} (h : goodKey l s)
    (hcond : ∀ t ∈ stanzas,
      ¬(t.package = s.package ∧ t.version = s.version) ∨ t = s) :
    goodKey (stanzas.foldl putSrcPkg l) s := by
  induction stanzas generalizing l with
  | nil => exact h
  | cons t rest ih =>
    rw [List.foldl_cons]
    refine ih ?_ (fun u hu => hcond u (List.mem_cons_of_mem t hu))
    rcases hcond t (List.mem_cons_self t rest) with hne | heq
    · exact putSrcPkg_preserve hne h
    · rw [heq]
      exact putSrcPkg_goodKey l s

theorem foldl_putSrcPkg_goodKey {stanzas : List Stanza} {l : List SrcPkg}
    {s : Stanza} (hs : s ∈ stanzas)
    (hkey : ∀ t ∈ stanzas, t.package = s.package → t.version = s.version → t = s) :
    goodKey (stanzas.foldl putSrcPkg l) s := by
  induction stanzas generalizing l with
  | nil => cases hs
  | cons t rest ih =>
    rw [List.foldl_cons]
    by_cases hsr : s ∈ rest
    · exact ih hsr (fun u hu => hkey u (List.mem_cons_of_mem t hu))
    · have hst : t = s := by
        rcases List.mem_cons.mp hs with h | h
        · exact h.symm
        · exact absurd h hsr
      subst hst
      refine foldl_putSrcPkg_keep (putSrcPkg_goodKey l t) ?_
      intro u hu
      by_cases hc : u.package = t.package ∧ u.version = t.version
      · exact Or.inr (hkey u (List.mem_cons_of_mem t hu) hc.1 hc.2)
      · exact Or.inl hc

theorem foldl_putSrcPkg_mem {stanzas : List Stanza} {l : List SrcPkg}
    {r : SrcPkg} (h : r ∈ l)
    (hne : ∀ t ∈ stanzas, ¬(r.name = t.package ∧ r.version = t.version)) :
    r ∈ stanzas.foldl putSrcPkg l := by
  induction stanzas generalizing l with
  | nil => exact h
  | cons t rest ih =>
    rw [List.foldl_cons]
    exact ih (putSrcPkg_mem h (hne t (List.mem_cons_self t rest)))
      (fun u hu => hne u (List.mem_cons_of_mem t hu))

theorem foldl_putSrcPkg_keys {stanzas : List Stanza} {l : List SrcPkg}
    {r : SrcPkg} (h : r ∈ stanzas.foldl putSrcPkg l) :
    (∃ r0 ∈ l, r.name = r0.name ∧ r.version = r0.version) ∨
    (∃ t ∈ stanzas, r.name = t.package ∧ r.version = t.version) := by
  induction stanzas generalizing l with
  | nil => exact Or.inl ⟨r, h, rfl, rfl⟩
  | cons t rest ih =>
    rw [List.foldl_cons] at h
    rcases ih h with hl | hr
    · obtain ⟨r0, hr0, hn, hv⟩ := hl
      rcases putSrcPkg_keys hr0 with ⟨r1, hr1, hn1, hv1⟩ | hkey
      · exact Or.inl ⟨r1, hr1, hn.trans hn1, hv.trans hv1⟩
      · exact Or.inr ⟨t, List.mem_cons_self t rest, hn.trans hkey.1, hv.trans hkey.2⟩
    · obtain ⟨u, hu, hn, hv⟩ := hr
      exact Or.inr ⟨u, List.mem_cons_of_mem t hu, hn, hv⟩

theorem stanzaKeyMem_iff (all : List Stanza) (n v : String) :
    stanzaKeyMem all n v = true ↔ ∃ u ∈ all, u.package = n ∧ u.version = v := by
  simp [stanzaKeyMem]

/-! ## Lemmas about the reconciliation pipeline -/

namespace UpdateRepositoriesTask

theorem addStanzas_srcNames (db : DB) (l : List Stanza) :
    (addStanzas db l).srcNames =
      l.foldl (fun ns t => insertIfAbsent ns t.package) db.srcNames := by
  induction l generalizing db with
  | nil => rfl
  | cons t rest ih =>
    have h : addStanzas db (t :: rest) = addStanzas (addStanza db t) rest := rfl
    rw [h, ih, List.foldl_cons]
    rfl

theorem addStanzas_srcPkgs (db : DB) (l : List Stanza) :
    (addStanzas db l).srcPkgs = l.foldl putSrcPkg db.srcPkgs := by
  induction l generalizing db with
  | nil => rfl
  | cons t rest ih =>
    have h : addStanzas db (t :: rest) = addStanzas (addStanza db t) rest := rfl
    rw [h, ih, List.foldl_cons]
    rfl

theorem addStanzas_srcEntries (db : DB) (l : List Stanza) :
    (addStanzas db l).srcEntries =
      l.foldl (fun es t => insertIfAbsent es (t.package, t.version))
        db.srcEntries := by
  induction l generalizing db with
  | nil => rfl
  | cons t rest ih =>
    have h : addStanzas db (t :: rest) = addStanzas (addStanza db t) rest := rfl
    rw [h, ih, List.foldl_cons]
    rfl

theorem addStanzas_binNames (db : DB) (l : List Stanza) :
    (addStanzas db l).binNames =
      l.foldl (fun bs t => t.binaries.foldl insertIfAbsent bs) db.binNames := by
  induction l generalizing db with
  | nil => rfl
  | cons t rest ih =>
    have h : addStanzas db (t :: rest) = addStanzas (addStanza db t) rest := rfl
    rw [h, ih, List.foldl_cons]
    rfl

theorem addStanzas_mainSource (db : DB) (l : List Stanza) :
    (addStanzas db l).mainSource =
      l.foldl
        (fun m t => t.binaries.foldl (fun m2 b => setAssoc m2 b t.package) m)
        db.mainSource := by
  induction l generalizing db with
  | nil => rfl
  | cons t rest ih =>
    have h : addStanzas db (t :: rest) = addStanzas (addStanza db t) rest := rfl
    rw [h, ih, List.foldl_cons]
    rfl

theorem addStanzas_binEntries (db : DB) (l : List Stanza) :
    (addStanzas db l).binEntries = db.binEntries := by
  induction l generalizing db with
  | nil => rfl
  | cons t rest ih =>
    have h : addStanzas db (t :: rest) = addStanzas (addStanza db t) rest := rfl
    rw [h, ih]
    rfl

theorem gcSources_srcEntries (db : DB) (all : List Stanza) :
    (gcSources db all).srcEntries = gcEntries db.srcEntries all := rfl

theorem gcSources_srcPkgs (db : DB) (all : List Stanza) :
    (gcSources db all).srcPkgs =
      gcPkgs db.srcPkgs (gcEntries db.srcEntries all) := rfl

theorem gcSources_srcNames (db : DB) (all : List Stanza) :
    (gcSources db all).srcNames =
      gcNames db.srcNames (gcPkgs db.srcPkgs (gcEntries db.srcEntries all)) := rfl

theorem gcSources_binNames (db : DB) (all : List Stanza) :
    (gcSources db all).binNames =
      gcBins db.binNames (gcPkgs db.srcPkgs (gcEntries db.srcEntries all)) := rfl

theorem gcSources_mainSource (db : DB) (all : List Stanza) :
    (gcSources db all).mainSource =
      gcMain db.mainSource
        (gcBins db.binNames (gcPkgs db.srcPkgs (gcEntries db.srcEntries all))) := rfl

theorem gcSources_binEntries (db : DB) (all : List Stanza) :
    (gcSources db all).binEntries = db.binEntries := rfl

theorem mem_gcEntries {es : List (String × String)} {all : List Stanza}
    {e : String × String} (he : e ∈ es)
    (hall : ∃ u ∈ all, u.package = e.1 ∧ u.version = e.2) :
    e ∈ gcEntries es all :=
  List.mem_filter.mpr ⟨he, (stanzaKeyMem_iff all e.1 e.2).mpr hall⟩

theorem mem_gcPkgs {pkgs : List SrcPkg} {es : List (String × String)}
    {r : SrcPkg} (hr : r ∈ pkgs) (he : (r.name, r.version) ∈ es) :
    r ∈ gcPkgs pkgs es := by
  refine List.mem_filter.mpr ⟨hr, ?_⟩
  simp only [List.any_eq_true, decide_eq_true_eq]
  exact ⟨(r.name, r.version), he, rfl, rfl⟩

theorem gcPkgs_sub {pkgs : List SrcPkg} {es : List (String × String)}
    {r : SrcPkg} (h : r ∈ gcPkgs pkgs es) : r ∈ pkgs :=
  (List.mem_filter.mp h).1

theorem mem_gcNames {ns : List String} {pkgs : List SrcPkg} {n : String}
    (hn : n ∈ ns) (hw : ∃ r ∈ pkgs, r.name = n) : n ∈ gcNames ns pkgs := by
  refine List.mem_filter.mpr ⟨hn, ?_⟩
  simp only [List.any_eq_true, decide_eq_true_eq]
  exact hw

theorem mem_gcBins {bs : List String} {pkgs : List SrcPkg} {b : String}
    (hb : b ∈ bs) (hw : ∃ r ∈ pkgs, b ∈ r.binaries) : b ∈ gcBins bs pkgs := by
  refine List.mem_filter.mpr ⟨hb, ?_⟩
  simp only [List.any_eq_true, decide_eq_true_eq]
  exact hw

theorem gcMain_goodBind {m : List (String × String)} {bs : List String}
    {b v : String} (h : goodBind m b v) (hb : b ∈ bs) :
    goodBind (gcMain m bs) b v := by
  obtain ⟨h1, h2⟩ := h
  constructor
  · rw [lookupKey_isSome_iff] at h1 ⊢
    obtain ⟨p, hp, hpk⟩ := h1
    refine ⟨p, List.mem_filter.mpr ⟨hp, ?_⟩, hpk⟩
    simp only [decide_eq_true_eq]
    rw [hpk]
    exact hb
  · intro p hp hpk
    exact h2 p (List.mem_filter.mp hp).1 hpk

theorem gcEntries_idem (es : List (String × String)) (all : List Stanza) :
    gcEntries (gcEntries es all) all = gcEntries es all :=
  filter_idem es _

theorem gcPkgs_idem (pkgs : List SrcPkg) (es : List (String × String)) :
    gcPkgs (gcPkgs pkgs es) es = gcPkgs pkgs es :=
  filter_idem pkgs _

theorem gcNames_idem (ns : List String) (pkgs : List SrcPkg) :
    gcNames (gcNames ns pkgs) pkgs = gcNames ns pkgs :=
  filter_idem ns _

theorem gcBins_idem (bs : List String) (pkgs : List SrcPkg) :
    gcBins (gcBins bs pkgs) pkgs = gcBins bs pkgs :=
  filter_idem bs _

theorem gcMain_idem (m : List (String × String)) (bs : List String) :
    gcMain (gcMain m bs) bs = gcMain m bs :=
  filter_idem m _

theorem gcSources_idem (db : DB) (all : List Stanza) :
    gcSources (gcSources db all) all = gcSources db all := by
  obtain ⟨ns, pkgs, es, bs, m, be⟩ := db
  simp only [gcSources, gcSources_srcEntries, gcSources_srcPkgs,
    gcSources_srcNames, gcSources_binNames, gcSources_mainSource]
  rw [gcEntries_idem, gcPkgs_idem, gcNames_idem, gcBins_idem, gcMain_idem]

theorem applyPackages_srcNames (db : DB) (pf : Option (List BinStanza)) :
    (applyPackages db pf).srcNames = db.srcNames := by
  cases pf <;> rfl

theorem applyPackages_srcPkgs (db : DB) (pf : Option (List BinStanza)) :
    (applyPackages db pf).srcPkgs = db.srcPkgs := by
  cases pf <;> rfl

theorem applyPackages_srcEntries (db : DB) (pf : Option (List BinStanza)) :
    (applyPackages db pf).srcEntries = db.srcEntries := by
  cases pf <;> rfl

theorem applyPackages_binNames (db : DB) (pf : Option (List BinStanza)) :
    (applyPackages db pf).binNames = db.binNames := by
  cases pf <;> rfl

theorem applyPackages_mainSource (db : DB) (pf : Option (List BinStanza)) :
    (applyPackages db pf).mainSource = db.mainSource := by
  cases pf <;> rfl

theorem applyPackages_idem (db : DB) (pf : Option (List BinStanza)) :
    applyPackages (applyPackages db pf) pf = applyPackages db pf := by
  cases pf with
  | none => rfl
  | some l =>
    obtain ⟨ns, pkgs, es, bs, m, be⟩ := db
    simp only [applyPackages]
    congr 1
    have hmem : ∀ x ∈ l, (x.package, x.version) ∈
        (l.foldl (fun es2 x2 => insertIfAbsent es2 (x2.package, x2.version))
          be).filter
          (fun e => l.any (fun x2 => x2.package = e.1 ∧ x2.version = e.2)) := by
      intro x hx
      refine List.mem_filter.mpr ⟨?_, ?_⟩
      · exact self_mem_foldl_insertBinEntry be hx
      · simp only [List.any_eq_true, decide_eq_true_eq]
        exact ⟨x, hx, rfl, rfl⟩
    rw [foldl_insertBinEntry_id hmem]
    exact filter_idem _ _

theorem gcSources_applyPackages (db : DB) (all : List Stanza)
    (pf : Option (List BinStanza)) :
    gcSources (applyPackages db pf) all = applyPackages (gcSources db all) pf := by
  cases pf with
  | none => rfl
  | some l =>
    obtain ⟨ns, pkgs, es, bs, m, be⟩ := db
    rfl

theorem mem_foldl_insertNested {stanzas : List Stanza} {l : List String}
    {b : String} (h : b ∈ l) :
    b ∈ stanzas.foldl (fun bs t => t.binaries.foldl insertIfAbsent bs) l := by
  induction stanzas generalizing l with
  | nil => exact h
  | cons t rest ih => exact ih (mem_foldl_insertIfAbsent t.binaries h)

theorem self_mem_foldl_insertNested {stanzas : List Stanza} {t : Stanza}
    {b : String} (l : List String) (ht : t ∈ stanzas) (hb : b ∈ t.binaries) :
    b ∈ stanzas.foldl (fun bs u => u.binaries.foldl insertIfAbsent bs) l := by
  induction stanzas generalizing l with
  | nil => cases ht
  | cons u rest ih =>
    rcases List.mem_cons.mp ht with rfl | htr
    · rw [List.foldl_cons]
      exact mem_foldl_insertNested (self_mem_foldl_insertIfAbsent l hb)
    · rw [List.foldl_cons]
      exact ih _ htr

theorem foldl_setAssoc_id {bs : List String} {m : List (String × String)}
    {v : String} (h : ∀ b ∈ bs, goodBind m b v) :
    bs.foldl (fun m2 b => setAssoc m2 b v) m = m := by
  induction bs with
  | nil => rfl
  | cons b rest ih =>
    rw [List.foldl_cons, setAssoc_same (h b (List.mem_cons_self b rest))]
    exact ih (fun x hx => h x (List.mem_cons_of_mem b hx))

theorem addStanza_id {db : DB} {s : Stanza} (h : stanzaPresent db s) :
    addStanza db s = db := by
  obtain ⟨h1, h2, h3, h4, h5⟩ := h
  have e1 : insertIfAbsent db.srcNames s.package = db.srcNames :=
    insertIfAbsent_of_mem h1
  have e2 : putSrcPkg db.srcPkgs s = db.srcPkgs := putSrcPkg_id h2
  have e3 : insertIfAbsent db.srcEntries (s.package, s.version) = db.srcEntries :=
    insertIfAbsent_of_mem h3
  have e4 : s.binaries.foldl insertIfAbsent db.binNames = db.binNames :=
    foldl_insertIfAbsent_id h4
  have e5 : s.binaries.foldl (fun m b => setAssoc m b s.package) db.mainSource
      = db.mainSource := foldl_setAssoc_id h5
  rw [addStanza, e1, e2, e3, e4, e5]

theorem addStanzas_id {db : DB} {l : List Stanza}
    (h : ∀ s ∈ l, stanzaPresent db s) : addStanzas db l = db := by
  induction l with
  | nil => rfl
  | cons s rest ih =>
    have hd : addStanzas db (s :: rest) = addStanzas (addStanza db s) rest := rfl
    rw [hd, addStanza_id (h s (List.mem_cons_self s rest))]
    exact ih (fun t ht => h t (List.mem_cons_of_mem s ht))

theorem stanza_survives {db : DB} {stanzas all : List Stanza} {s : Stanza}
    (hs : s ∈ stanzas)
    (hkey : ∀ u ∈ stanzas, u.package = s.package → u.version = s.version → u = s)
    (hsub : ∃ u ∈ all, u.package = s.package ∧ u.version = s.version) :
    goodKey (gcSources (addStanzas db stanzas) all).srcPkgs s ∧
    (s.package, s.version) ∈ (gcSources (addStanzas db stanzas) all).srcEntries ∧
    s.package ∈ (gcSources (addStanzas db stanzas) all).srcNames ∧
    ∀ b ∈ s.binaries, b ∈ (gcSources (addStanzas db stanzas) all).binNames := by
  have hgkA : goodKey (addStanzas db stanzas).srcPkgs s := by
    rw [addStanzas_srcPkgs]
    exact foldl_putSrcPkg_goodKey hs hkey
  have hentA : (s.package, s.version) ∈ (addStanzas db stanzas).srcEntries := by
    rw [addStanzas_srcEntries]
    exact self_mem_foldl_insertMap (fun t : Stanza => (t.package, t.version)) _ hs
  have hentG : (s.package, s.version) ∈
      (gcSources (addStanzas db stanzas) all).srcEntries := by
    rw [gcSources_srcEntries]
    exact mem_gcEntries hentA hsub
  have hrecG : s.record ∈ (gcSources (addStanzas db stanzas) all).srcPkgs := by
    rw [gcSources_srcPkgs]
    refine mem_gcPkgs hgkA.1 ?_
    rw [← gcSources_srcEntries]
    exact hentG
  refine ⟨⟨hrecG, ?_⟩, hentG, ?_, ?_⟩
  · intro r hr hn hv
    rw [gcSources_srcPkgs] at hr
    exact hgkA.2 r (gcPkgs_sub hr) hn hv
  · have hnameA : s.package ∈ (addStanzas db stanzas).srcNames := by
      rw [addStanzas_srcNames]
      exact self_mem_foldl_insertMap Stanza.package _ hs
    rw [gcSources_srcNames]
    refine mem_gcNames hnameA ⟨s.record, ?_, rfl⟩
    rw [← gcSources_srcPkgs]
    exact hrecG
  · intro b hb
    have hbinA : b ∈ (addStanzas db stanzas).binNames := by
      rw [addStanzas_binNames]
      exact self_mem_foldl_insertNested db.binNames hs hb
    rw [gcSources_binNames]
    refine mem_gcBins hbinA ⟨s.record, ?_, hb⟩
    rw [← gcSources_srcPkgs]
    exact hrecG

theorem reconcile_present {db : DB} {stanzas all : List Stanza}
    {pf : Option (List BinStanza)}
    (hsub : ∀ s ∈ stanzas, ∃ u ∈ all, u.package = s.package ∧ u.version = s.version)
    (hkeys : ∀ s ∈ stanzas, ∀ t ∈ stanzas,
      t.package = s.package → t.version = s.version → t = s)
    (hbins : ∀ s ∈ stanzas, ∀ t ∈ stanzas, ∀ b,
      b ∈ s.binaries → b ∈ t.binaries → s = t) :
    ∀ s ∈ stanzas, stanzaPresent (reconcile db stanzas all pf) s := by
  intro s hs
  obtain ⟨hgk, hent, hname, hbin⟩ :=
    @stanza_survives db stanzas all s hs (hkeys s hs) (hsub s hs)
  have hmainA : ∀ b ∈ s.binaries,
      goodBind (addStanzas db stanzas).mainSource b s.package := by
    intro b hb
    rw [addStanzas_mainSource]
    refine mainSource_after_fold hs hb ?_
    intro u hu b2 hb2 hb2b
    have hus : u = s := hbins u hu s hs b (hb2b ▸ hb2) hb
    rw [hus]
  have hmainG : ∀ b ∈ s.binaries,
      goodBind (gcSources (addStanzas db stanzas) all).mainSource b s.package := by
    intro b hb
    rw [gcSources_mainSource]
    refine gcMain_goodBind (hmainA b hb) ?_
    rw [← gcSources_binNames]
    exact hbin b hb
  have hr : reconcile db stanzas all pf =
      applyPackages (gcSources (addStanzas db stanzas) all) pf := rfl
  unfold stanzaPresent
  rw [hr, applyPackages_srcNames, applyPackages_srcPkgs,
    applyPackages_srcEntries, applyPackages_binNames, applyPackages_mainSource]
  exact ⟨hname, hgk, hent, hbin, hmainG⟩

theorem foldl_insertIfAbsent_nodup {α : Type} [DecidableEq α] {bs l : List α}
    (hn : bs.Nodup) (hd : ∀ b ∈ bs, b ∉ l) :
    bs.foldl insertIfAbsent l = l ++ bs := by
  induction bs generalizing l with
  | nil => simp
  | cons b rest ih =>
    have hbl : b ∉ l := hd b (List.mem_cons_self b rest)
    have hbn : b ∉ rest := (List.nodup_cons.mp hn).1
    have hn2 : rest.Nodup := (List.nodup_cons.mp hn).2
    have hd2 : ∀ x ∈ rest, x ∉ l ++ [b] := by
      intro x hx hc
      rcases List.mem_append.mp hc with hc | hc
      · exact hd x (List.mem_cons_of_mem b hx) hc
      · rw [List.mem_singleton] at hc
        exact hbn (hc ▸ hx)
    rw [List.foldl_cons, insertIfAbsent, if_neg hbl, ih hn2 hd2]
    simp

theorem parseAll_none {l : List (Option (List Stanza))} (h : none ∈ l) :
    parseAll l = none := by
  induction l with
  | nil => cases h
  | cons x rest ih =>
    cases x with
    | none => rfl
    | some f =>
      have hr : none ∈ rest := by
        rcases List.mem_cons.mp h with h1 | h1
        · exact absurd h1 (by simp)
        · exact h1
      simp only [parseAll, ih hr]

theorem reconcile_srcNames (db : DB) (stanzas all : List Stanza)
    (pf : Option (List BinStanza)) :
    (reconcile db stanzas all pf).srcNames =
      gcNames (addStanzas db stanzas).srcNames
        (gcPkgs (addStanzas db stanzas).srcPkgs
          (gcEntries (addStanzas db stanzas).srcEntries all)) := by
  have h : (reconcile db stanzas all pf).srcNames =
      (gcSources (addStanzas db stanzas) all).srcNames :=
    applyPackages_srcNames _ _
  rw [h, gcSources_srcNames]

theorem reconcile_srcPkgs (db : DB) (stanzas all : List Stanza)
    (pf : Option (List BinStanza)) :
    (reconcile db stanzas all pf).srcPkgs =
      gcPkgs (addStanzas db stanzas).srcPkgs
        (gcEntries (addStanzas db stanzas).srcEntries all) := by
  have h : (reconcile db stanzas all pf).srcPkgs =
      (gcSources (addStanzas db stanzas) all).srcPkgs :=
    applyPackages_srcPkgs _ _
  rw [h, gcSources_srcPkgs]

theorem reconcile_srcEntries (db : DB) (stanzas all : List Stanza)
    (pf : Option (List BinStanza)) :
    (reconcile db stanzas all pf).srcEntries =
      gcEntries (addStanzas db stanzas).srcEntries all := by
  have h : (reconcile db stanzas all pf).srcEntries =
      (gcSources (addStanzas db stanzas) all).srcEntries :=
    applyPackages_srcEntries _ _
  rw [h, gcSources_srcEntries]

theorem reconcile_binNames (db : DB) (stanzas all : List Stanza)
    (pf : Option (List BinStanza)) :
    (reconcile db stanzas all pf).binNames =
      gcBins (addStanzas db stanzas).binNames
        (gcPkgs (addStanzas db stanzas).srcPkgs
          (gcEntries (addStanzas db stanzas).srcEntries all)) := by
  have h : (reconcile db stanzas all pf).binNames =
      (gcSources (addStanzas db stanzas) all).binNames :=
    applyPackages_binNames _ _
  rw [h, gcSources_binNames]

theorem reconcile_mainSource (db : DB) (stanzas all : List Stanza)
    (pf : Option (List BinStanza)) :
    (reconcile db stanzas all pf).mainSource =
      gcMain (addStanzas db stanzas).mainSource
        (gcBins (addStanzas db stanzas).binNames
          (gcPkgs (addStanzas db stanzas).srcPkgs
            (gcEntries (addStanzas db stanzas).srcEntries all))) := by
  have h : (reconcile db stanzas all pf).mainSource =
      (gcSources (addStanzas db stanzas) all).mainSource :=
    applyPackages_mainSource _ _
  rw [h, gcSources_mainSource]

theorem reconcile_binEntries_some (db : DB) (stanzas all : List Stanza)
    (l : List BinStanza) :
    (reconcile db stanzas all (some l)).binEntries =
      (l.foldl (fun es x => insertIfAbsent es (x.package, x.version))
        db.binEntries).filter
        (fun e => l.any (fun x => x.package = e.1 ∧ x.version = e.2)) := by
  have h : (gcSources (addStanzas db stanzas) all).binEntries = db.binEntries := by
    rw [gcSources_binEntries, addStanzas_binEntries]
  show (applyPackages (gcSources (addStanzas db stanzas) all) (some l)).binEntries = _
  simp only [applyPackages]
  rw [h]

/-! ## Claim theorems about the synchronization task -/

/-- C1: the repository-data synchronization task is idempotent — for a
fixed Sources input (whose stanzas belong to the repository's Sources
files, with one stanza per name and version and one source listing each
binary), running `execute` a second time right after a first run leaves
the database state unchanged, so in particular no duplicate
`SourcePackageName` records are created by the second run. -/
theorem execute_idempotent (db : DB) (inp : TaskInput) (stanzas : List Stanza)
    (hparse : parseAll inp.updatedSources = some stanzas)
    (hsub : ∀ s ∈ stanzas, ∃ u ∈ inp.allSources,
      u.package = s.package ∧ u.version = s.version)
    (hkeys : ∀ s ∈ stanzas, ∀ t ∈ stanzas,
      t.package = s.package → t.version = s.version → t = s)
    (hbins : ∀ s ∈ stanzas, ∀ t ∈ stanzas, ∀ b,
      b ∈ s.binaries → b ∈ t.binaries → s = t)
    (db1 : DB) (h1 : execute db inp = Except.ok db1) :
    execute db1 inp = Except.ok db1 := by
  simp only [execute, hparse] at h1 ⊢
  injection h1 with h1
  subst h1
  congr 1
  have hpres : ∀ s ∈ stanzas,
      stanzaPresent
        (reconcile db stanzas inp.allSources inp.updatedPackages) s :=
    reconcile_present hsub hkeys hbins
  have step1 : addStanzas
      (reconcile db stanzas inp.allSources inp.updatedPackages) stanzas =
      reconcile db stanzas inp.allSources inp.updatedPackages :=
    addStanzas_id hpres
  show applyPackages
      (gcSources
        (addStanzas (reconcile db stanzas inp.allSources inp.updatedPackages)
          stanzas)
        inp.allSources)
      inp.updatedPackages =
    reconcile db stanzas inp.allSources inp.updatedPackages
  rw [step1]
  show applyPackages
      (gcSources
        (applyPackages (gcSources (addStanzas db stanzas) inp.allSources)
          inp.updatedPackages)
        inp.allSources)
      inp.updatedPackages =
    applyPackages (gcSources (addStanzas db stanzas) inp.allSources)
      inp.updatedPackages
  rw [gcSources_applyPackages, gcSources_idem, applyPackages_idem]

theorem execute_idempotent_witness :
    execute (reconcile emptyDB [wStanza] [wStanza] none)
      ⟨[some [wStanza]], [wStanza], none⟩ =
    Except.ok (reconcile emptyDB [wStanza] [wStanza] none) :=
  execute_idempotent emptyDB ⟨[some [wStanza]], [wStanza], none⟩ [wStanza]
    rfl (by decide) (by decide) (by decide)
    (reconcile emptyDB [wStanza] [wStanza] none) rfl

/-- C4: when one of the Sources files being processed is invalid (fails to
parse), `execute` aborts with an error and produces no new database state:
no `SourcePackageName` and no `BinaryPackageName` records are created and
the package tables are left in their prior state. -/
theorem execute_invalid_aborts (db : DB) (inp : TaskInput)
    (hinv : none ∈ inp.updatedSources) :
    execute db inp = Except.error () := by
  simp only [execute, parseAll_none hinv]

theorem execute_invalid_aborts_witness :
    execute emptyDB ⟨[none], [], none⟩ = Except.error () :=
  execute_invalid_aborts emptyDB ⟨[none], [], none⟩ (by decide)

/-- C7: a `BinaryPackageRepositoryEntry` of the repository whose binary
package is absent from the updated Packages file is no longer among the
repository's binary entries after `execute`. -/
theorem execute_removes_binary_entries (db : DB) (inp : TaskInput)
    (pf : List BinStanza) (hpf : inp.updatedPackages = some pf)
    (n : String) (habsent : ∀ x ∈ pf, x.package ≠ n)
    (v : String) (hin : (n, v) ∈ db.binEntries)
    (db1 : DB) (h1 : execute db inp = Except.ok db1) :
    (n, v) ∉ db1.binEntries := by
  rcases hp : parseAll inp.updatedSources with _ | stanzas
  · simp only [execute, hp] at h1
    exact Except.noConfusion h1
  · simp only [execute, hp] at h1
    injection h1 with h1
    subst h1
    rw [hpf, reconcile_binEntries_some]
    intro hmem
    have hpred := (List.mem_filter.mp hmem).2
    simp only [List.any_eq_true, decide_eq_true_eq] at hpred
    obtain ⟨x, hx, hxn, _⟩ := hpred
    exact habsent x hx hxn

theorem execute_removes_binary_entries_witness :
    ("old-bin", "1.0") ∉
      (reconcile ⟨[], [], [], [], [], [("old-bin", "1.0")]⟩ []
        [] (some [⟨"new-bin", "src", "2.0"⟩])).binEntries :=
  execute_removes_binary_entries ⟨[], [], [], [], [], [("old-bin", "1.0")]⟩
    ⟨[some []], [], some [⟨"new-bin", "src", "2.0"⟩]⟩
    [⟨"new-bin", "src", "2.0"⟩] rfl "old-bin" (by decide) "1.0" (by decide)
    (reconcile ⟨[], [], [], [], [], [("old-bin", "1.0")]⟩ []
      [] (some [⟨"new-bin", "src", "2.0"⟩])) rfl

/-- C2: remapped binaries are handled — if the database maps a binary
package name to source package A and the new Sources data lists that
binary under stanza `t` of source package B (the only updated stanza
listing it), then after `execute` the binary's main source package is B,
the binary package name still exists, and no extra `SourcePackage`
records are created for sources that were merely updated (every updated
stanza's name and version already had a record). -/
theorem execute_remaps_binaries (db : DB) (inp : TaskInput)
    (stanzas : List Stanza) (hparse : parseAll inp.updatedSources = some stanzas)
    (t : Stanza) (ht : t ∈ stanzas) (b : String) (hb : b ∈ t.binaries)
    (a : String) (hold : lookupKey db.mainSource b = some a)
    (huniq : ∀ u ∈ stanzas, b ∈ u.binaries → u = t)
    (hkey : ∀ u ∈ stanzas, u.package = t.package → u.version = t.version → u = t)
    (hsub : ∃ u ∈ inp.allSources, u.package = t.package ∧ u.version = t.version)
    (hupd : ∀ u ∈ stanzas, ∃ r ∈ db.srcPkgs,
      r.name = u.package ∧ r.version = u.version)
    (db1 : DB) (h1 : execute db inp = Except.ok db1) :
    lookupKey db1.mainSource b = some t.package ∧ b ∈ db1.binNames ∧
    ∀ r ∈ db1.srcPkgs, ∃ r0 ∈ db.srcPkgs,
      r.name = r0.name ∧ r.version = r0.version := by
  simp only [execute, hparse] at h1
  injection h1 with h1
  subst h1
  obtain ⟨hgk, hent, hname, hbin⟩ :=
    @stanza_survives db stanzas inp.allSources t ht hkey hsub
  have hbinG := hbin b hb
  have hmainA : goodBind (addStanzas db stanzas).mainSource b t.package := by
    rw [addStanzas_mainSource]
    refine mainSource_after_fold ht hb ?_
    intro u hu b2 hb2 hb2b
    rw [huniq u hu (hb2b ▸ hb2)]
  have hmainG : goodBind
      (gcSources (addStanzas db stanzas) inp.allSources).mainSource b
      t.package := by
    rw [gcSources_mainSource]
    refine gcMain_goodBind hmainA ?_
    rw [← gcSources_binNames]
    exact hbinG
  refine ⟨?_, ?_, ?_⟩
  · have hmp : (reconcile db stanzas inp.allSources inp.updatedPackages).mainSource
        = (gcSources (addStanzas db stanzas) inp.allSources).mainSource :=
      applyPackages_mainSource _ _
    rw [hmp]
    exact goodBind_lookup hmainG
  · have hbp : (reconcile db stanzas inp.allSources inp.updatedPackages).binNames
        = (gcSources (addStanzas db stanzas) inp.allSources).binNames :=
      applyPackages_binNames _ _
    rw [hbp]
    exact hbinG
  · intro r hr
    rw [reconcile_srcPkgs] at hr
    have hrA : r ∈ (addStanzas db stanzas).srcPkgs := gcPkgs_sub hr
    rw [addStanzas_srcPkgs] at hrA
    rcases foldl_putSrcPkg_keys hrA with ⟨r0, hr0, hn, hv⟩ | ⟨u, hu, hn, hv⟩
    · exact ⟨r0, hr0, hn, hv⟩
    · obtain ⟨r0, hr0, hn0, hv0⟩ := hupd u hu
      exact ⟨r0, hr0, hn.trans hn0.symm, hv.trans hv0.symm⟩

theorem execute_remaps_binaries_witness :
    lookupKey
      (reconcile ⟨["dummy"], [⟨"dummy", "0.1", "old.dsc", []⟩],
          [("dummy", "0.1")], ["dummy-bin"], [("dummy-bin", "src-pkg")], []⟩
        [⟨"dummy", "0.1", "new.dsc", ["dummy-bin"]⟩]
        [⟨"dummy", "0.1", "new.dsc", ["dummy-bin"]⟩] none).mainSource
      "dummy-bin" = some "dummy" :=
  (execute_remaps_binaries
    ⟨["dummy"], [⟨"dummy", "0.1", "old.dsc", []⟩], [("dummy", "0.1")],
      ["dummy-bin"], [("dummy-bin", "src-pkg")], []⟩
    ⟨[some [⟨"dummy", "0.1", "new.dsc", ["dummy-bin"]⟩]],
      [⟨"dummy", "0.1", "new.dsc", ["dummy-bin"]⟩], none⟩
    [⟨"dummy", "0.1", "new.dsc", ["dummy-bin"]⟩] rfl
    ⟨"dummy", "0.1", "new.dsc", ["dummy-bin"]⟩ (by decide)
    "dummy-bin" (by decide) "src-pkg" (by decide) (by decide) (by decide)
    (by decide) (by decide)
    (reconcile ⟨["dummy"], [⟨"dummy", "0.1", "old.dsc", []⟩],
        [("dummy", "0.1")], ["dummy-bin"], [("dummy-bin", "src-pkg")], []⟩
      [⟨"dummy", "0.1", "new.dsc", ["dummy-bin"]⟩]
      [⟨"dummy", "0.1", "new.dsc", ["dummy-bin"]⟩] none) rfl).1

/-- C3: unrelated records are not torn down — a source package record that
originates from a non-updated Sources file of the repository (its name and
version appear in the repository's Sources files but in no updated
stanza), together with its repository entry, its name and its binary
package names, remains present and unchanged after `execute`. -/
theorem execute_preserves_unrelated (db : DB) (inp : TaskInput)
    (stanzas : List Stanza) (hparse : parseAll inp.updatedSources = some stanzas)
    (r : SrcPkg) (hr : r ∈ db.srcPkgs)
    (hentry : (r.name, r.version) ∈ db.srcEntries)
    (hname : r.name ∈ db.srcNames)
    (hbn : ∀ b ∈ r.binaries, b ∈ db.binNames)
    (hall : ∃ u ∈ inp.allSources, u.package = r.name ∧ u.version = r.version)
    (hnotupd : ∀ t ∈ stanzas, ¬(r.name = t.package ∧ r.version = t.version))
    (db1 : DB) (h1 : execute db inp = Except.ok db1) :
    r ∈ db1.srcPkgs ∧ (r.name, r.version) ∈ db1.srcEntries ∧
    r.name ∈ db1.srcNames ∧ ∀ b ∈ r.binaries, b ∈ db1.binNames := by
  simp only [execute, hparse] at h1
  injection h1 with h1
  subst h1
  have hrA : r ∈ (addStanzas db stanzas).srcPkgs := by
    rw [addStanzas_srcPkgs]
    exact foldl_putSrcPkg_mem hr hnotupd
  have hentA : (r.name, r.version) ∈ (addStanzas db stanzas).srcEntries := by
    rw [addStanzas_srcEntries]
    exact mem_foldl_insertMap (fun t : Stanza => (t.package, t.version)) _ hentry
  have hentG : (r.name, r.version) ∈
      gcEntries (addStanzas db stanzas).srcEntries inp.allSources :=
    mem_gcEntries hentA hall
  have hrG : r ∈ gcPkgs (addStanzas db stanzas).srcPkgs
      (gcEntries (addStanzas db stanzas).srcEntries inp.allSources) :=
    mem_gcPkgs hrA hentG
  refine ⟨?_, ?_, ?_, ?_⟩
  · rw [reconcile_srcPkgs]
    exact hrG
  · rw [reconcile_srcEntries]
    exact hentG
  · rw [reconcile_srcNames]
    have hnA : r.name ∈ (addStanzas db stanzas).srcNames := by
      rw [addStanzas_srcNames]
      exact mem_foldl_insertMap Stanza.package _ hname
    exact mem_gcNames hnA ⟨r, hrG, rfl⟩
  · intro b hb
    rw [reconcile_binNames]
    have hbA : b ∈ (addStanzas db stanzas).binNames := by
      rw [addStanzas_binNames]
      exact mem_foldl_insertNested (hbn b hb)
    exact mem_gcBins hbA ⟨r, hrG, hb⟩

theorem execute_preserves_unrelated_witness :
    ⟨"dummy", "1.0", "file.dsc", ["dummy-bin"]⟩ ∈
      (reconcile ⟨["dummy"], [⟨"dummy", "1.0", "file.dsc", ["dummy-bin"]⟩],
          [("dummy", "1.0")], ["dummy-bin"], [("dummy-bin", "dummy")], []⟩
        [wStanza]
        [wStanza, ⟨"dummy", "1.0", "file.dsc", ["dummy-bin"]⟩]
        none).srcPkgs :=
  (execute_preserves_unrelated
    ⟨["dummy"], [⟨"dummy", "1.0", "file.dsc", ["dummy-bin"]⟩],
      [("dummy", "1.0")], ["dummy-bin"], [("dummy-bin", "dummy")], []⟩
    ⟨[some [wStanza]],
      [wStanza, ⟨"dummy", "1.0", "file.dsc", ["dummy-bin"]⟩], none⟩
    [wStanza] rfl
    ⟨"dummy", "1.0", "file.dsc", ["dummy-bin"]⟩ (by decide) (by decide)
    (by decide) (by decide) (by decide) (by decide)
    (reconcile ⟨["dummy"], [⟨"dummy", "1.0", "file.dsc", ["dummy-bin"]⟩],
        [("dummy", "1.0")], ["dummy-bin"], [("dummy-bin", "dummy")], []⟩
      [wStanza]
      [wStanza, ⟨"dummy", "1.0", "file.dsc", ["dummy-bin"]⟩]
      none) rfl).1

/-- C8: running `execute` over a Sources file describing one source
package over an empty package database creates exactly one
`SourcePackageName`, one `SourcePackage` record carrying the dsc file name
of the stanza, and one `BinaryPackageName` per binary listed in the
stanza — whether or not the source package name already existed without
any version. -/
theorem execute_creates_records (db : DB) (inp : TaskInput) (s : Stanza)
    (hparse : parseAll inp.updatedSources = some [s])
    (hall : ∃ u ∈ inp.allSources, u.package = s.package ∧ u.version = s.version)
    (hpkgs : db.srcPkgs = []) (hentries : db.srcEntries = [])
    (hbnames : db.binNames = [])
    (hnames : db.srcNames = [] ∨ db.srcNames = [s.package])
    (hnodup : s.binaries.Nodup)
    (db1 : DB) (h1 : execute db inp = Except.ok db1) :
    db1.srcNames = [s.package] ∧ db1.srcPkgs = [s.record] ∧
    db1.binNames = s.binaries := by
  simp only [execute, hparse] at h1
  injection h1 with h1
  subst h1
  have hA_pkgs : (addStanzas db [s]).srcPkgs = [s.record] := by
    rw [addStanzas_srcPkgs, List.foldl_cons, List.foldl_nil, hpkgs]
    rw [putSrcPkg, if_neg (by simp [hasSrcPkg])]
    rfl
  have hA_entries : (addStanzas db [s]).srcEntries = [(s.package, s.version)] := by
    rw [addStanzas_srcEntries, List.foldl_cons, List.foldl_nil, hentries]
    rw [insertIfAbsent, if_neg (by simp)]
    rfl
  have hA_names : (addStanzas db [s]).srcNames = [s.package] := by
    rw [addStanzas_srcNames, List.foldl_cons, List.foldl_nil]
    rcases hnames with h | h
    · rw [h, insertIfAbsent, if_neg (by simp)]
      rfl
    · rw [h, insertIfAbsent, if_pos (by simp)]
  have hA_bins : (addStanzas db [s]).binNames = s.binaries := by
    rw [addStanzas_binNames, List.foldl_cons, List.foldl_nil, hbnames]
    have h := foldl_insertIfAbsent_nodup hnodup
      (fun b _ hc => (List.not_mem_nil b) hc)
    rw [h, List.nil_append]
  have hG_entries : gcEntries [(s.package, s.version)] inp.allSources =
      [(s.package, s.version)] := by
    apply List.filter_eq_self.mpr
    intro e he
    rw [List.mem_singleton] at he
    subst he
    exact (stanzaKeyMem_iff inp.allSources s.package s.version).mpr hall
  have hG_pkgs : gcPkgs [s.record] [(s.package, s.version)] = [s.record] := by
    apply List.filter_eq_self.mpr
    intro r hr
    rw [List.mem_singleton] at hr
    subst hr
    simp only [List.any_eq_true, decide_eq_true_eq]
    exact ⟨(s.package, s.version), List.mem_singleton_self _, rfl, rfl⟩
  have hG_names : gcNames [s.package] [s.record] = [s.package] := by
    apply List.filter_eq_self.mpr
    intro n hn
    rw [List.mem_singleton] at hn
    subst hn
    simp only [List.any_eq_true, decide_eq_true_eq]
    exact ⟨s.record, List.mem_singleton_self _, rfl⟩
  have hG_bins : gcBins s.binaries [s.record] = s.binaries := by
    apply List.filter_eq_self.mpr
    intro b hb
    simp only [List.any_eq_true, decide_eq_true_eq]
    exact ⟨s.record, List.mem_singleton_self _, hb⟩
  refine ⟨?_, ?_, ?_⟩
  · rw [reconcile_srcNames, hA_names, hA_pkgs, hA_entries, hG_entries,
      hG_pkgs, hG_names]
  · rw [reconcile_srcPkgs, hA_pkgs, hA_entries, hG_entries, hG_pkgs]
  · rw [reconcile_binNames, hA_bins, hA_pkgs, hA_entries, hG_entries,
      hG_pkgs, hG_bins]

theorem execute_creates_records_witness :
    (reconcile emptyDB [wStanza2] [wStanza2] none).srcNames = ["dummy"] ∧
    (reconcile emptyDB [wStanza2] [wStanza2] none).srcPkgs =
      [wStanza2.record] ∧
    (reconcile emptyDB [wStanza2] [wStanza2] none).binNames = ["dummy-bin"] :=
  execute_creates_records emptyDB ⟨[some [wStanza2]], [wStanza2], none⟩
    wStanza2 rfl (by decide) rfl rfl rfl (Or.inl rfl) (by decide)
    (reconcile emptyDB [wStanza2] [wStanza2] none) rfl

end UpdateRepositoriesTask

end DistroTracker
